import Mathlib

/-!
# Verification of the ComfyUI automation selection engine

Shallow embedding of the selection engine in `main.py` of the
ComfyU-auto-script repository, together with proofs and refutations of the
specification claims about it.

Conventions of the embedding:
* Python dicts of identifier properties become association lists
  (`List (String × _)`); dict assignment is `setKey`, dict `.get(k, d)` is
  `getKeyD`.
* Python floats become `ℚ` (the claims only involve exactly representable
  values), Python ints become `Int` or `Nat` as the source dictates.
* Randomness is passed in explicitly: `random.random()` draws become a
  stream `rs : Nat → ℚ` of values in `[0,1)`, `random.choices` with weights
  becomes `weightedPickQ` applied to a draw `u`, `random.choice` /
  uniform `random.choices` become indexing by a supplied natural number
  modulo the population size, and `random.shuffle` becomes an explicit
  `shuffle` function assumed (where needed) to produce a permutation.
* A value that Python would raise on is an `Except Unit` error; the
  blanket `except` handlers of the source are modelled at the call sites
  that catch them.
-/

namespace ComfyAuto

/-- Python dict assignment `m[k] = v` on an association list: replaces the
binding of `k` if present (keeping its position), otherwise appends. -/
def setKey {β : Type} : List (String × β) → String → β → List (String × β)
  | [], k, v => [(k, v)]
  | (k', v') :: rest, k, v =>
      if k' = k then (k, v) :: rest else (k', v') :: setKey rest k v

/-- Python `m.get(k, d)` on an association list. -/
def getKeyD {β : Type} : List (String × β) → String → β → β
  | [], _, d => d
  | (k', v') :: rest, k, d => if k' = k then v' else getKeyD rest k d

/-- Python `m.get(k)` on an association list (`None` = `none`). -/
def lookupKey {β : Type} : List (String × β) → String → Option β
  | [], _ => none
  | (k', v') :: rest, k => if k' = k then some v' else lookupKey rest k

/-- `list(dict.fromkeys(xs))`: de-duplicate keeping first occurrences. -/
def dedupFirst : List String → List String
  | [] => []
  | a :: rest => a :: dedupFirst (rest.filter (fun x => x ≠ a))
termination_by l => l.length
decreasing_by
  simpa using Nat.lt_succ_of_le (List.length_filter_le _ rest)

@[simp] theorem setKey_nil {β : Type} (k : String) (v : β) :
    setKey [] k v = [(k, v)] := rfl

theorem getKeyD_setKey_self {β : Type} (m : List (String × β)) (k : String)
    (v d : β) : getKeyD (setKey m k v) k d = v := by
  induction m with
  | nil => simp [setKey, getKeyD]
  | cons p rest ih =>
      obtain ⟨a, b⟩ := p
      by_cases h : a = k
      · simp [setKey, getKeyD, h]
      · simp [setKey, getKeyD, h, ih]

theorem getKeyD_setKey_ne {β : Type} (m : List (String × β)) (k k' : String)
    (v d : β) (hne : k' ≠ k) : getKeyD (setKey m k v) k' d = getKeyD m k' d := by
  induction m with
  | nil => simp [setKey, getKeyD, Ne.symm hne]
  | cons p rest ih =>
      obtain ⟨a, b⟩ := p
      by_cases h : a = k
      · subst h
        simp [setKey, getKeyD, Ne.symm hne]
      · by_cases h2 : a = k'
        · simp [setKey, getKeyD, h, h2, hne]
        · simp [setKey, getKeyD, h, h2, ih]

/-!
## Weighted and uniform draws

`random.choices(population, weights, k=1)` computes cumulative weights and
locates `random() * total` by bisection, with the found index capped at
`len(population) - 1`; it raises when the total is not positive.
-/

/-- Locate `t` in the cumulative weights, capped at the last element
(mirrors `bisect.bisect(cum_weights, x, 0, hi)` with `hi = n - 1`). -/
def pickCum {α : Type} : List (α × ℚ) → ℚ → Option α
  | [], _ => none
  | [(a, _)], _ => some a
  | (a, w) :: p :: rest, t =>
      if t < w then some a else pickCum (p :: rest) (t - w)

/-- One draw of `random.choices(names, weights, k=1)[0]` where `u` models
the uniform draw `random.random()`.  `none` models the `ValueError` Python
raises when the weight total is not positive. -/
def weightedPickQ {α : Type} (items : List (α × ℚ)) (u : ℚ) : Option α :=
  let total := (items.map (fun p => p.2)).sum
  if total ≤ 0 then none else pickCum items (u * total)

theorem pickCum_isSome {α : Type} (items : List (α × ℚ)) (t : ℚ)
    (h : items ≠ []) : ∃ x, pickCum items t = some x ∧ x ∈ items.map Prod.fst := by
  induction items generalizing t with
  | nil => exact absurd rfl h
  | cons p rest ih =>
      cases rest with
      | nil => exact ⟨p.1, rfl, by simp⟩
      | cons q rest2 =>
          by_cases hlt : t < p.2
          · exact ⟨p.1, by simp [pickCum, hlt], by simp⟩
          · obtain ⟨x, hx, hmem⟩ := ih (t - p.2) (by simp)
            refine ⟨x, ?_, ?_⟩
            · simpa [pickCum, hlt] using hx
            · simp only [List.map_cons] at hmem ⊢
              exact List.mem_cons_of_mem _ hmem

theorem pickCum_mem {α : Type} (items : List (α × ℚ)) (t : ℚ) (x : α)
    (h : pickCum items t = some x) : x ∈ items.map Prod.fst := by
  induction items generalizing t with
  | nil => simp [pickCum] at h
  | cons p rest ih =>
      cases rest with
      | nil =>
          simp only [pickCum, Option.some.injEq] at h
          simp [← h]
      | cons q rest2 =>
          by_cases hlt : t < p.2
          · simp only [pickCum, hlt, if_true, Option.some.injEq] at h
            simp [← h]
          · simp only [pickCum, hlt, if_false] at h
            simp only [List.map_cons] at ih ⊢
            exact List.mem_cons_of_mem _ (ih (t - p.2) h)

theorem weightedPickQ_isSome {α : Type} (items : List (α × ℚ)) (u : ℚ)
    (hne : items ≠ []) (hpos : 0 < (items.map (fun p => p.2)).sum) :
    ∃ x, weightedPickQ items u = some x ∧ x ∈ items.map Prod.fst := by
  have := pickCum_isSome items (u * (items.map (fun p => p.2)).sum) hne
  simpa [weightedPickQ, not_le.mpr hpos] using this

theorem weightedPickQ_mem {α : Type} (items : List (α × ℚ)) (u : ℚ) (x : α)
    (h : weightedPickQ items u = some x) : x ∈ items.map Prod.fst := by
  by_cases htot : (items.map (fun p => p.2)).sum ≤ 0
  · simp [weightedPickQ, htot] at h
  · exact pickCum_mem items _ x (by simpa [weightedPickQ, htot] using h)

/-!
## The `db` strategy weight formula

From `set_checkpoint` (and identically `set_char`, `set_lora`):
```
w = base_weight - cnt
if w > max_w: w = max_w
if w < min_w: w = min_w
weights.append(max(0, int(w)))
```
-/

/-- The effective weight the `db` strategy actually uses for one candidate
with usage count `cnt`. -/
def dbWeight (base maxW minW cnt : Int) : Int :=
  let w := base - cnt
  let w2 := if w > maxW then maxW else w
  let w3 := if w2 < minW then minW else w2
  max 0 w3

/-- Modelled from the spec: `clamp(base_weight − usage_count, min_weight,
max_weight)`, the weight §4.3 says the db strategy uses. -/
def clampSpec (x lo hi : Int) : Int := max lo (min x hi)

/-- Usage count of a key in the counter table: the stored count, or 0 when
the key has no record (`cnt = 0` default in the source). -/
def countOf (db : List (String × Int)) (k : String) : Int :=
  getKeyD db k 0

/-- The code clamp agrees with `clampSpec` before the final `max 0`. -/
theorem dbWeight_eq_max_zero_clamp (base maxW minW cnt : Int) :
    dbWeight base maxW minW cnt = max 0 (clampSpec (base - cnt) minW maxW) := by
  unfold dbWeight clampSpec
  rcases lt_or_le maxW (base - cnt) with h1 | h1
  · rcases lt_or_le maxW minW with h2 | h2 <;>
      simp [h1, not_lt.mpr, min_eq_right h1.le] <;> omega
  · rcases lt_or_le (base - cnt) minW with h2 | h2 <;>
      simp [not_lt.mpr h1, min_eq_left h1] <;> omega

/-!
## The `weight` strategy merge

`set_checkpoint` (weight mode) iterates all checkpoint yml buckets and all
entries inside each:
```
weight = val.get('weight', self.main_config.get('CheckpointWeightDefault', 150))
merged_weights[key] = merged_weights.get(key, 0) + weight
```
`set_lora` (weight mode) instead guards against non-numeric values:
```
w = val.get('weight', 1)
merged_weights[key] = merged_weights.get(key, 0) + (float(w) if isinstance(w, (int, float)) else 1.0)
```
A stored `weight` property is modelled as `YVal`: `num q` for a numeric
value and `nonnum` for any value for which `0 + weight` raises `TypeError`
in Python.  An entry of a bucket is `(identifier, stored weight property)`,
with `none` meaning the property is absent.
-/

/-- A stored property value: numeric, or something Python cannot add to a
number. -/
inductive YVal where
  | num (q : ℚ)
  | nonnum
deriving DecidableEq

/-- Contribution of one entry in the checkpoint (and char) merge: absent
means the configured default; a non-numeric value makes `0 + weight` raise
(`none`). -/
def ckContrib (default : ℚ) : Option YVal → Option ℚ
  | none => some default
  | some (.num q) => some q
  | some .nonnum => none

/-- Contribution of one entry in the etc-lora merge: absent means the
literal `1`, non-numeric is replaced by `1.0`; never raises. -/
def loraContrib : Option YVal → Option ℚ
  | none => some 1
  | some (.num q) => some q
  | some .nonnum => some 1

/-- The inner `for key, val in yml_data.items()` loop of the merge: each
entry adds its contribution to the running dict; a raising contribution
aborts the whole merge. -/
def mergeEntries (contrib : Option YVal → Option ℚ) :
    List (String × Option YVal) → List (String × ℚ) →
    Except Unit (List (String × ℚ))
  | [], m => .ok m
  | e :: es, m =>
      match contrib e.2 with
      | none => .error ()
      | some q => mergeEntries contrib es (setKey m e.1 (getKeyD m e.1 0 + q))

/-- The outer `for yml_name, yml_data in ...` loop over metadata buckets. -/
def mergeBuckets (contrib : Option YVal → Option ℚ) :
    List (List (String × Option YVal)) → List (String × ℚ) →
    Except Unit (List (String × ℚ))
  | [], m => .ok m
  | b :: bs, m =>
      match mergeEntries contrib b m with
      | .error u => .error u
      | .ok m2 => mergeBuckets contrib bs m2

/-- Merged weight map of the checkpoint `weight` strategy. -/
def mergedWeightsCk (default : ℚ) (bs : List (List (String × Option YVal))) :
    Except Unit (List (String × ℚ)) :=
  mergeBuckets (ckContrib default) bs []

/-- Merged weight map of the etc-lora `weight` strategy. -/
def mergedWeightsLora (bs : List (List (String × Option YVal))) :
    Except Unit (List (String × ℚ)) :=
  mergeBuckets loraContrib bs []

/-- Total contribution of the entries of one bucket carrying key `k`. -/
def bucketContrib (contrib : Option YVal → Option ℚ)
    (b : List (String × Option YVal)) (k : String) : ℚ :=
  ((b.filter (fun e => e.1 = k)).map (fun e => (contrib e.2).getD 0)).sum

theorem mergeEntries_ok (contrib : Option YVal → Option ℚ)
    (es : List (String × Option YVal)) (m : List (String × ℚ))
    (h : ∀ e ∈ es, contrib e.2 ≠ none) :
    ∃ m2, mergeEntries contrib es m = .ok m2 ∧
      ∀ k, getKeyD m2 k 0 = getKeyD m k 0 + bucketContrib contrib es k := by
  induction es generalizing m with
  | nil => exact ⟨m, rfl, fun k => by simp [bucketContrib]⟩
  | cons e rest ih =>
      obtain ⟨q, hq⟩ := Option.ne_none_iff_exists.mp (h e (by simp))
      obtain ⟨m2, hm2, hval⟩ :=
        ih (setKey m e.1 (getKeyD m e.1 0 + q)) (fun x hx => h x (by simp [hx]))
      refine ⟨m2, ?_, ?_⟩
      · simp only [mergeEntries, ← hq]
        exact hm2
      · intro k
        rw [hval k]
        by_cases hk : e.1 = k
        · subst hk
          rw [getKeyD_setKey_self]
          simp [bucketContrib, ← hq]
          ring
        · rw [getKeyD_setKey_ne _ _ _ _ _ (fun hh => hk hh.symm)]
          simp [bucketContrib, hk]

theorem mergeEntries_error (contrib : Option YVal → Option ℚ)
    (es : List (String × Option YVal)) (m : List (String × ℚ))
    (h : ∃ e ∈ es, contrib e.2 = none) :
    mergeEntries contrib es m = .error () := by
  induction es generalizing m with
  | nil => simp at h
  | cons e rest ih =>
      rcases h with ⟨e2, he2, hc⟩
      rcases List.mem_cons.mp he2 with rfl | htail
      · simp [mergeEntries, hc]
      · cases hce : contrib e.2 with
        | none => simp [mergeEntries, hce]
        | some q => simp [mergeEntries, hce, ih _ ⟨e2, htail, hc⟩]

theorem mergeBuckets_ok (contrib : Option YVal → Option ℚ)
    (bs : List (List (String × Option YVal))) (m : List (String × ℚ))
    (h : ∀ b ∈ bs, ∀ e ∈ b, contrib e.2 ≠ none) :
    ∃ m2, mergeBuckets contrib bs m = .ok m2 ∧
      ∀ k, getKeyD m2 k 0 =
        getKeyD m k 0 + (bs.map (fun b => bucketContrib contrib b k)).sum := by
  induction bs generalizing m with
  | nil => exact ⟨m, rfl, fun k => by simp⟩
  | cons b rest ih =>
      obtain ⟨m1, hm1, hv1⟩ := mergeEntries_ok contrib b m (h b (by simp))
      obtain ⟨m2, hm2, hv2⟩ := ih m1 (fun x hx => h x (by simp [hx]))
      refine ⟨m2, by simp [mergeBuckets, hm1, hm2], fun k => ?_⟩
      rw [hv2 k, hv1 k]
      simp
      ring

theorem mergeBuckets_error (contrib : Option YVal → Option ℚ)
    (bs : List (List (String × Option YVal))) (m : List (String × ℚ))
    (h : ∃ b ∈ bs, ∃ e ∈ b, contrib e.2 = none) :
    mergeBuckets contrib bs m = .error () := by
  induction bs generalizing m with
  | nil => simp at h
  | cons b rest ih =>
      rcases h with ⟨b2, hb2, he⟩
      rcases List.mem_cons.mp hb2 with rfl | htail
      · simp [mergeBuckets, mergeEntries_error contrib b2 m he]
      · rcases hok : mergeEntries contrib b m with u | m1
        · simp [mergeBuckets, hok]
        · simp [mergeBuckets, hok, ih m1 ⟨b2, htail, he⟩]

/-!
## The checkpoint `weight` strategy end-to-end

```
if merged_weights:
    checkpoint_names = list(merged_weights.keys())
    checkpoint_weights = list(merged_weights.values())
    selected_checkpoint = random.choices(checkpoint_names, weights=checkpoint_weights, k=1)[0]
    cp_path = self.checkpoint_files.get(...).get(selected_checkpoint)
    self.selected_Checkpoint = {selected_checkpoint: cp_path}
```
The whole of `set_checkpoint` is wrapped in `try/except` whose handler only
logs, so a raise inside leaves `self.selected_Checkpoint` unchanged.
-/

/-- `catalog.get(selected)`: the resolved path, `none` when absent. -/
def lookupPath (catalog : List (String × String)) (k : String) : Option String :=
  lookupKey catalog k

/-- The checkpoint `weight` strategy: merge the bucket weights, draw one
name, store it with its (possibly unresolved) catalog path.  `prev` is the
previous selection, kept on the paths where the source keeps it (empty
merge result, or an exception swallowed by the blanket handler). -/
def setCheckpointWeight (default : ℚ) (bs : List (List (String × Option YVal)))
    (catalog : List (String × String)) (u : ℚ)
    (prev : Option (String × Option String)) : Option (String × Option String) :=
  match mergedWeightsCk default bs with
  | .error _ => prev
  | .ok m =>
      if m.isEmpty then prev
      else
        match weightedPickQ m u with
        | none => prev
        | some sel => some (sel, lookupPath catalog sel)

/-- Modelled from the spec: the same strategy but, as §7 claims for
malformed weight values, substituting the configured default for a
non-numeric `weight` property instead of raising. -/
def setCheckpointWeightSpecModel (default : ℚ)
    (bs : List (List (String × Option YVal)))
    (catalog : List (String × String)) (u : ℚ)
    (prev : Option (String × Option String)) : Option (String × Option String) :=
  match mergeBuckets (fun v => some ((ckContrib default v).getD default)) bs [] with
  | .error _ => prev
  | .ok m =>
      if m.isEmpty then prev
      else
        match weightedPickQ m u with
        | none => prev
        | some sel => some (sel, lookupPath catalog sel)

/-- The per-series path-mapping step of the `weightyml` strategy:
```
path = self.lora_files.get(...).get(...).get(sel)
if path:
    mapped[sel] = path
```
(an unresolvable or falsy path leaves `mapped` untouched). -/
def wyAddMapped (catalog : List (String × String)) (sel : String)
    (mapped : List (String × String)) : List (String × String) :=
  match lookupPath catalog sel with
  | none => mapped
  | some p => if p = "" then mapped else setKey mapped sel p

/-!
## The cycle pool (`_pop_from_cycle`)

```
if not candidates:
    return []
pool = self.cycle_pool.setdefault(category, {})
cur = pool.get(type_key, [])
if not cur:
    cur = candidates[:]
    random.shuffle(cur)
result = []
while len(result) < k:
    if not cur:
        cur = candidates[:]
        random.shuffle(cur)
    take = min(k - len(result), len(cur))
    result.extend(cur[:take])
    cur = cur[take:]
pool[type_key] = cur
return result
```
The `while` loop is embedded with an explicit fuel equal to `k`: every
iteration extends `result` by `take ≥ 1` items (the refilled `cur` is
non-empty whenever `shuffle candidates` is), so `k` iterations always
suffice.  When `shuffle candidates` is empty — something a permutation
never produces — Python would loop forever; the embedding returns early in
that degenerate case.
-/

/-- The `while len(result) < k` loop; `need = k - len(result)`. -/
def popLoopAux (shuffle : List String → List String) (cand : List String) :
    Nat → Nat → List String → List String × List String
  | 0, _, cur => ([], cur)
  | _ + 1, 0, cur => ([], cur)
  | fuel + 1, need + 1, cur =>
      let cur2 := if cur.isEmpty then shuffle cand else cur
      if cur2.isEmpty then ([], cur2)
      else
        let t := min (need + 1) cur2.length
        let rest := popLoopAux shuffle cand fuel (need + 1 - t) (cur2.drop t)
        (cur2.take t ++ rest.1, rest.2)

/-- `_pop_from_cycle(category, type_key, candidates, k)`: returns the
popped identifiers and the remaining pool stored back for that
(category, type). -/
def popFromCycle (shuffle : List String → List String) (pool cand : List String)
    (k : Nat) : List String × List String :=
  if cand.isEmpty then ([], pool)
  else
    let cur0 := if pool.isEmpty then shuffle cand else pool
    popLoopAux shuffle cand k k cur0

/-- `n` successive single-item pops (`k = 1`) against a fixed candidate
list, threading the stored pool; returns the concatenation of the results. -/
def popCycleSeq (shuffle : List String → List String) (cand : List String) :
    Nat → List String → List String
  | 0, _ => []
  | n + 1, pool =>
      let r := popFromCycle shuffle pool cand 1
      r.1 ++ popCycleSeq shuffle cand n r.2

theorem popLoopAux_subset (shuffle : List String → List String)
    (cand : List String) (fuel need : Nat) (cur : List String)
    (hs : ∀ l, ∀ y ∈ shuffle l, y ∈ l) (x : String)
    (hx : x ∈ (popLoopAux shuffle cand fuel need cur).1) :
    x ∈ cur ∨ x ∈ cand := by
  induction fuel generalizing need cur with
  | zero => simp [popLoopAux] at hx
  | succ fuel ih =>
      cases need with
      | zero => simp [popLoopAux] at hx
      | succ need =>
          have hmem : ∀ y ∈ (if cur.isEmpty then shuffle cand else cur),
              y ∈ cur ∨ y ∈ cand := by
            intro y hy
            by_cases hc : cur.isEmpty
            · exact Or.inr (hs cand y (by simpa [hc] using hy))
            · exact Or.inl (by simpa [hc] using hy)
          simp only [popLoopAux] at hx
          by_cases he : (if cur.isEmpty then shuffle cand else cur).isEmpty
          · rw [if_pos he] at hx
            simp at hx
          · rw [if_neg he] at hx
            simp only [List.mem_append] at hx
            rcases hx with hx | hx
            · exact hmem x (List.mem_of_mem_take hx)
            · rcases ih _ _ hx with hx2 | hx2
              · exact hmem x (List.mem_of_mem_drop hx2)
              · exact Or.inr hx2

theorem popFromCycle_subset (shuffle : List String → List String)
    (pool cand : List String) (k : Nat)
    (hs : ∀ l, ∀ y ∈ shuffle l, y ∈ l) (x : String)
    (hx : x ∈ (popFromCycle shuffle pool cand k).1) : x ∈ pool ∨ x ∈ cand := by
  unfold popFromCycle at hx
  by_cases hc : cand.isEmpty
  · simp [hc] at hx
  · rw [if_neg hc] at hx
    by_cases hp : pool.isEmpty
    · rcases popLoopAux_subset shuffle cand k k _ hs x (by simpa [hp] using hx)
        with h | h
      · exact Or.inr (hs cand x h)
      · exact Or.inr h
    · exact popLoopAux_subset shuffle cand k k _ hs x (by simpa [hp] using hx)

theorem popFromCycle_empty_cand (shuffle : List String → List String)
    (pool : List String) (k : Nat) :
    popFromCycle shuffle pool [] k = ([], pool) := by
  simp [popFromCycle]

/-- With `k = 1` and a non-empty pool, one pop takes the pool's head. -/
theorem popFromCycle_one (shuffle : List String → List String)
    (pool cand : List String) (hp : pool ≠ []) (hc : cand ≠ []) :
    popFromCycle shuffle pool cand 1 = (pool.take 1, pool.drop 1) := by
  cases pool with
  | nil => exact absurd rfl hp
  | cons a rest =>
      cases cand with
      | nil => exact absurd rfl hc
      | cons c crest => simp [popFromCycle, popLoopAux]

/-- With `k = 1` and an empty pool, the pool is refilled with
`shuffle cand` and its head is popped. -/
theorem popFromCycle_one_refill (shuffle : List String → List String)
    (cand : List String) (hc : cand ≠ []) (hsc : shuffle cand ≠ []) :
    popFromCycle shuffle [] cand 1 =
      ((shuffle cand).take 1, (shuffle cand).drop 1) := by
  cases cand with
  | nil => exact absurd rfl hc
  | cons c crest =>
      simp only [popFromCycle, List.isEmpty_cons, Bool.false_eq_true,
        if_false, List.isEmpty_nil, if_true]
      cases hsc2 : shuffle (c :: crest) with
      | nil => exact absurd hsc2 hsc
      | cons s srest => simp [popLoopAux]

/-- Successive single pops just walk down the stored pool. -/
theorem popCycleSeq_take (shuffle : List String → List String)
    (cand : List String) (hc : cand ≠ []) (n : Nat) (pool : List String)
    (hn : n ≤ pool.length) :
    popCycleSeq shuffle cand n pool = pool.take n := by
  induction n generalizing pool with
  | zero => simp [popCycleSeq]
  | succ n ih =>
      have hp : pool ≠ [] := by
        intro h
        rw [h] at hn
        simp at hn
      rw [popCycleSeq, popFromCycle_one shuffle pool cand hp hc]
      have hlen : n ≤ (pool.drop 1).length := by
        simp [List.length_drop]
        omega
      rw [ih (pool.drop 1) hlen, ← List.take_add, Nat.add_comm]

/-- Starting from an empty pool, `|cand|` single pops return exactly the
initial shuffle of the candidate list. -/
theorem popCycleSeq_full (shuffle : List String → List String)
    (cand : List String) (hc : cand ≠ [])
    (hs : (shuffle cand).length = cand.length) :
    popCycleSeq shuffle cand cand.length [] = shuffle cand := by
  cases hlen : cand.length with
  | zero => exact absurd (List.length_eq_zero.mp hlen) hc
  | succ m =>
      have hsc : shuffle cand ≠ [] := by
        intro h
        rw [h] at hs
        simp [hlen] at hs
      rw [popCycleSeq, popFromCycle_one_refill shuffle cand hc hsc]
      have hdlen : m ≤ ((shuffle cand).drop 1).length := by
        simp [List.length_drop, hs, hlen]
      rw [popCycleSeq_take shuffle cand hc m _ hdlen, ← List.take_add]
      have : (shuffle cand).length ≤ 1 + m := by
        rw [hs, hlen]
        omega
      exact List.take_of_length_le this

/-!
## The `db` strategy selection step

`set_checkpoint` (db mode) draws a single key:
```
if sum(weights) <= 0:
    selected_checkpoint = random.choice(candidate_keys)
else:
    selected_checkpoint = random.choices(candidate_keys, weights=weights, k=1)[0]
```
`set_lora` (db mode) draws `min(lora_cnt, len(candidate_keys))` keys with
replacement under the same fallback.  Uniform draws are modelled by a
supplied index reduced modulo the population size.
-/

/-- The weights list cast from `Nat` to `ℚ` (Python ints used as floats). -/
def natsToQ (l : List Nat) : List ℚ :=
  l.map (fun w => (Nat.cast w : ℚ))

theorem natsToQ_sum (l : List Nat) : (natsToQ l).sum = ((l.sum : Nat) : ℚ) := by
  induction l with
  | nil => simp [natsToQ]
  | cons a rest ih =>
      simp only [natsToQ, List.map_cons, List.sum_cons] at ih ⊢
      rw [ih]
      push_cast
      ring

theorem natsToQ_length (l : List Nat) : (natsToQ l).length = l.length := by
  simp [natsToQ]

theorem zip_map_fst (cands : List String) (ws : List Nat)
    (hlen : ws.length = cands.length) :
    (cands.zip (natsToQ ws)).map Prod.fst = cands := by
  apply List.map_fst_zip
  rw [natsToQ_length, hlen]

/-- `random.choice(l)` with supplied randomness `r`. -/
def uniformPick (l : List String) (r : Nat) : Option String :=
  l.get? (r % l.length)

/-- The selection step of the checkpoint db strategy, after the weights of
all candidates have been computed from the counter table. -/
def dbSelectCheckpoint (base maxW minW : Int) (db : List (String × Int))
    (cands : List String) (u : ℚ) (r : Nat) : Option String :=
  if cands.isEmpty then none
  else
    let ws : List Nat := cands.map fun k => (dbWeight base maxW minW (countOf db k)).toNat
    if ws.sum ≤ 0 then uniformPick cands r
    else weightedPickQ (cands.zip (natsToQ ws)) u

/-- The selection step of the etc-lora db strategy: `min(cnt, |cands|)`
draws with replacement, uniform when the weight total is not positive. -/
def dbSelectLora (base maxW minW : Int) (db : List (String × Int))
    (cands : List String) (cnt : Nat) (us : Nat → ℚ) (rs : Nat → Nat) :
    List String :=
  if cands.isEmpty then []
  else
    let ws : List Nat := cands.map fun k => (dbWeight base maxW minW (countOf db k)).toNat
    let m := min cnt cands.length
    if ws.sum ≤ 0 then (List.range m).filterMap fun i => uniformPick cands (rs i)
    else (List.range m).filterMap fun i =>
      weightedPickQ (cands.zip (natsToQ ws)) (us i)

theorem uniformPick_isSome (l : List String) (r : Nat) (h : l ≠ []) :
    ∃ x, uniformPick l r = some x ∧ x ∈ l := by
  have hlen : 0 < l.length := List.length_pos.mpr h
  have hlt : r % l.length < l.length := Nat.mod_lt r hlen
  refine ⟨l.get ⟨r % l.length, hlt⟩, ?_, List.get_mem l _ hlt⟩
  simp [uniformPick, List.get?_eq_get hlt]

/-- The checkpoint db selection always returns a member of a non-empty
candidate list. -/
theorem dbSelectCheckpoint_isSome (base maxW minW : Int)
    (db : List (String × Int)) (cands : List String) (u : ℚ) (r : Nat)
    (h : cands ≠ []) :
    ∃ x, dbSelectCheckpoint base maxW minW db cands u r = some x ∧ x ∈ cands := by
  have hne : ¬cands.isEmpty := by simpa using h
  unfold dbSelectCheckpoint
  rw [if_neg hne]
  set ws : List Nat :=
    cands.map fun k => (dbWeight base maxW minW (countOf db k)).toNat with hws
  by_cases hsum : ws.sum ≤ 0
  · rw [if_pos hsum]
    exact uniformPick_isSome cands r h
  · rw [if_neg hsum]
    have hlen : ws.length = cands.length := by simp [hws]
    have hzne : cands.zip (natsToQ ws) ≠ [] := by
      cases cands with
      | nil => exact absurd rfl h
      | cons a rest =>
          cases hw : ws with
          | nil => rw [hw] at hlen; simp at hlen
          | cons w wrest => simp [hw, natsToQ]
    have hpos : 0 < ((cands.zip (natsToQ ws)).map fun p => p.2).sum := by
      have hz : ((cands.zip (natsToQ ws)).map fun p => p.2)
          = natsToQ ws := by
        apply List.map_snd_zip
        rw [natsToQ_length, hlen]
      rw [hz, natsToQ_sum]
      have : 0 < ws.sum := Nat.pos_of_ne_zero (by omega)
      exact_mod_cast this
    obtain ⟨x, hx, hmem⟩ :=
      weightedPickQ_isSome (cands.zip (natsToQ ws)) u hzne hpos
    exact ⟨x, hx, by rwa [zip_map_fst cands ws hlen] at hmem⟩

/-- The etc-lora db selection: with a non-empty candidate list and a
resolved count of at least one, the result is non-empty, and every returned
identifier is a candidate. -/
theorem dbSelectLora_nonempty (base maxW minW : Int) (db : List (String × Int))
    (cands : List String) (cnt : Nat) (us : Nat → ℚ) (rs : Nat → Nat)
    (h : cands ≠ []) (hcnt : 1 ≤ cnt) :
    dbSelectLora base maxW minW db cands cnt us rs ≠ [] ∧
      ∀ x ∈ dbSelectLora base maxW minW db cands cnt us rs, x ∈ cands := by
  have hne : ¬cands.isEmpty := by simpa using h
  have hm : 0 < min cnt cands.length :=
    lt_min (by omega) (List.length_pos.mpr h)
  have hzero : 0 ∈ List.range (min cnt cands.length) := List.mem_range.mpr hm
  unfold dbSelectLora
  rw [if_neg hne]
  set ws : List Nat :=
    cands.map fun k => (dbWeight base maxW minW (countOf db k)).toNat with hws
  have hlen : ws.length = cands.length := by simp [hws]
  by_cases hsum : ws.sum ≤ 0
  · rw [if_pos hsum]
    constructor
    · obtain ⟨x, hx, _⟩ := uniformPick_isSome cands (rs 0) h
      intro hempty
      have : x ∈ (List.range (min cnt cands.length)).filterMap
          fun i => uniformPick cands (rs i) :=
        List.mem_filterMap.mpr ⟨0, hzero, hx⟩
      rw [hempty] at this
      simp at this
    · intro x hx
      obtain ⟨i, _, hpick⟩ := List.mem_filterMap.mp hx
      obtain ⟨y, hy, hymem⟩ := uniformPick_isSome cands (rs i) h
      rw [hy] at hpick
      cases hpick
      exact hymem
  · rw [if_neg hsum]
    have hzne : cands.zip (natsToQ ws) ≠ [] := by
      cases cands with
      | nil => exact absurd rfl h
      | cons a rest =>
          cases hw : ws with
          | nil => rw [hw] at hlen; simp at hlen
          | cons w wrest => simp [hw, natsToQ]
    have hpos : 0 < ((cands.zip (natsToQ ws)).map fun p => p.2).sum := by
      have hz : ((cands.zip (natsToQ ws)).map fun p => p.2)
          = natsToQ ws := by
        apply List.map_snd_zip
        rw [natsToQ_length, hlen]
      rw [hz, natsToQ_sum]
      have : 0 < ws.sum := Nat.pos_of_ne_zero (by omega)
      exact_mod_cast this
    constructor
    · obtain ⟨x, hx, _⟩ :=
        weightedPickQ_isSome (cands.zip (natsToQ ws)) (us 0) hzne hpos
      intro hempty
      have : x ∈ (List.range (min cnt cands.length)).filterMap fun i =>
          weightedPickQ (cands.zip (natsToQ ws)) (us i) :=
        List.mem_filterMap.mpr ⟨0, hzero, hx⟩
      rw [hempty] at this
      simp at this
    · intro x hx
      obtain ⟨i, _, hpick⟩ := List.mem_filterMap.mp hx
      have := weightedPickQ_mem _ _ _ hpick
      rwa [zip_map_fst cands ws hlen] at this

/-!
## The `weightyml` (WeightYml) resolver

Per group (`for g_id, g_cfg in weight_cfg.items()`), the source filters
`candidates = [s for s in dic.keys() if s not in exclude_dic]`, runs the
per-stage, the weight-stage, de-duplicates the union, and applies the
total-cap.  `perMax`, `weightMax`, `totalMax` are
`random_int_or_value(...) or 1`; the embedding takes the already resolved
integer and applies the `or 1` (zero becomes one).
-/

/-- One series entry of a group dictionary: the resolved `per` inclusion
probability (`none` when absent or not convertible by `float`) and the
stored `weight` property (`none` when the key is absent). -/
structure SeriesCfg where
  per : Option ℚ
  wval : Option YVal

/-- A WeightYml group: stage toggles, resolved stage caps, the excluded
series names, and the series dictionary. -/
structure GroupCfg where
  perOn : Bool
  perMax : Int
  weightOn : Bool
  weightMax : Int
  totalOn : Bool
  totalMax : Int
  excludeDic : List String
  dic : List (String × SeriesCfg)

/-- Python `x or 1` on a resolved integer cap. -/
def orOne (v : Int) : Int := if v = 0 then 1 else v

/-- The per-stage:
```
for s in candidates:
    p = float(s_cfg.get('per'))   # None on failure
    if p is None: continue
    if random.random() < p:
        per_selected.append(s)
        if len(per_selected) >= perMax: break
```
`rs` is the stream of `random.random()` draws, `i` the next stream index,
`cnt` the number already selected. -/
def perStage (rs : Nat → ℚ) (perMax : Int) :
    List (String × Option ℚ) → Nat → Nat → List String
  | [], _, _ => []
  | (_, none) :: rest, i, cnt => perStage rs perMax rest i cnt
  | (s, some p) :: rest, i, cnt =>
      if rs i < p then
        if ((cnt : Int) + 1) ≥ perMax then [s]
        else s :: perStage rs perMax rest (i + 1) (cnt + 1)
      else perStage rs perMax rest (i + 1) cnt

/-- `float(s_cfg.get('weight') or 1.0)` with the `except: w = 1.0` guard:
a falsy declared value (0) and a non-convertible value both become `1.0`. -/
def seriesW : YVal → ℚ
  | .num q => if q = 0 then 1 else q
  | .nonnum => 1

/-- The weight-stage candidate collection: series declaring a `weight`
property whose effective value is positive, with those values. -/
def weightCandidates : List (String × Option YVal) → List (String × ℚ)
  | [] => []
  | (_, none) :: rest => weightCandidates rest
  | (s, some v) :: rest =>
      if seriesW v > 0 then (s, seriesW v) :: weightCandidates rest
      else weightCandidates rest

/-- The weight-stage draw loop (weighted sampling without replacement):
```
while len(chosen) < pick_k and series_names:
    sel = random.choices(series_names, weights=series_weights, k=1)[0]
    if sel not in chosen: chosen.append(sel)
    if sel in series_names: pop sel from both lists
```
Each iteration removes the drawn series, so `fuel = |items|` bounds the
loop; a raising draw (`none`) is swallowed by the `except: pass` and keeps
what was chosen so far. -/
def weightStageAux (us : Nat → ℚ) :
    Nat → Nat → List (String × ℚ) → Nat → List String
  | 0, _, _, _ => []
  | _ + 1, 0, _, _ => []
  | fuel + 1, need + 1, items, i =>
      if items.isEmpty then []
      else
        match weightedPickQ items (us i) with
        | none => []
        | some sel =>
            sel :: weightStageAux us fuel need
              (items.eraseP (fun p => p.1 = sel)) (i + 1)

/-- The weight-stage with `pick_k = min(weightMax, len(series_names))`. -/
def weightStage (us : Nat → ℚ) (weightMax : Int)
    (items : List (String × ℚ)) : List String :=
  weightStageAux us items.length (min weightMax (items.length : Int)).toNat items 0

/-- One group of the `weightyml` strategy: per-stage and weight-stage
results are concatenated, de-duplicated keeping first occurrences, then
capped by the total-stage (`random.sample` is the supplied `sampler`). -/
def groupSelect (cfg : GroupCfg) (rs : Nat → ℚ) (us : Nat → ℚ)
    (sampler : List String → Int → List String) : List String :=
  let candidates := cfg.dic.filter (fun p => !(cfg.excludeDic.contains p.1))
  let perSel :=
    if cfg.perOn then
      perStage rs (orOne cfg.perMax) (candidates.map (fun p => (p.1, p.2.per))) 0 0
    else []
  let wItems := weightCandidates (candidates.map (fun p => (p.1, p.2.wval)))
  let wSel :=
    if cfg.weightOn then weightStage us (orOne cfg.weightMax) wItems else []
  let combined := dedupFirst (perSel ++ wSel)
  if cfg.totalOn && !combined.isEmpty then
    if (combined.length : Int) > orOne cfg.totalMax then
      sampler combined (orOne cfg.totalMax)
    else combined
  else combined

/-!
## The loop driver (`run`)

The batch body flattens the three nested loops into one index:
```
ck_idx = idx // (char_loop * queue_loop)
ch_idx = (idx // queue_loop) % char_loop
q_idx = idx % queue_loop
```
then re-reads the config, computes the freshly-read maxima
(`_loop_max_value` of `CheckpointLoop` / `CharLoop` / `queueLoop`, where a
falsy 0 disables the check), and:
* checkpoint overrun → `stop_batch = True; break`;
* char overrun → `continue` (skip this index only);
* queue overrun → `continue` (skip this index only);
* otherwise `db_save()` and `Queue_send()` run (the index "executes").
-/

/-- The three freshly-read loop maxima for one iteration (0 = falsy,
check disabled). -/
structure LoopCfg where
  ckMax : Nat
  chMax : Nat
  qMax : Nat

/-- Driver state inside one batch. -/
structure BatchState where
  executed : List Nat
  stopped : Bool
  lastCk : Int
  lastCh : Int

/-- Nesting-level indices recovered from the flat index. -/
def ckIdxOf (chLoop qLoop idx : Nat) : Nat := idx / (chLoop * qLoop)

def chIdxOf (chLoop qLoop idx : Nat) : Nat := (idx / qLoop) % chLoop

def qIdxOf (qLoop idx : Nat) : Nat := idx % qLoop

/-- Checkpoint-level overrun test at flat index `idx` against the config
read at that iteration. -/
def ckExceed (cfg : Nat → LoopCfg) (chLoop qLoop idx : Nat) : Bool :=
  (cfg idx).ckMax != 0 && ckIdxOf chLoop qLoop idx + 1 > (cfg idx).ckMax

def chExceed (cfg : Nat → LoopCfg) (chLoop qLoop idx : Nat) : Bool :=
  (cfg idx).chMax != 0 && chIdxOf chLoop qLoop idx + 1 > (cfg idx).chMax

def qExceed (cfg : Nat → LoopCfg) (qLoop idx : Nat) : Bool :=
  (cfg idx).qMax != 0 && qIdxOf qLoop idx + 1 > (cfg idx).qMax

/-- One iteration of the flattened batch loop.  The conditional
`last_ck_idx` / `last_ch_idx` assignments of the source (which gate the
`set_char()` / `set_lora()` calls) are recorded as unconditional updates to
the same value. -/
def batchStep (cfg : Nat → LoopCfg) (chLoop qLoop : Nat) (st : BatchState)
    (idx : Nat) : BatchState :=
  if st.stopped then st
  else if ckExceed cfg chLoop qLoop idx then { st with stopped := true }
  else if chExceed cfg chLoop qLoop idx then
    { st with lastCk := (ckIdxOf chLoop qLoop idx : Int) }
  else if qExceed cfg qLoop idx then
    { st with lastCk := (ckIdxOf chLoop qLoop idx : Int),
              lastCh := (chIdxOf chLoop qLoop idx : Int) }
  else
    { st with lastCk := (ckIdxOf chLoop qLoop idx : Int),
              lastCh := (chIdxOf chLoop qLoop idx : Int),
              executed := st.executed ++ [idx] }

/-- Run the batch body over a list of flat indices. -/
def runIdxs (cfg : Nat → LoopCfg) (chLoop qLoop : Nat) :
    List Nat → BatchState → BatchState
  | [], st => st
  | i :: rest, st => runIdxs cfg chLoop qLoop rest (batchStep cfg chLoop qLoop st i)

/-- One outer batch of `run`: iterate `idx in range(total_iters)` with the
initially resolved loop counts; returns the executed indices and whether
the batch stopped early. -/
def runBatch (cfg : Nat → LoopCfg) (ckLoop chLoop qLoop : Nat) :
    List Nat × Bool :=
  let final := runIdxs cfg chLoop qLoop (List.range (ckLoop * chLoop * qLoop))
    ⟨[], false, -1, -1⟩
  (final.executed, final.stopped)

theorem batchStep_stopped (cfg : Nat → LoopCfg) (chLoop qLoop : Nat)
    (st : BatchState) (i : Nat) (h : st.stopped = true) :
    batchStep cfg chLoop qLoop st i = st := by
  simp [batchStep, h]

theorem runIdxs_stopped (cfg : Nat → LoopCfg) (chLoop qLoop : Nat)
    (l : List Nat) (st : BatchState) (h : st.stopped = true) :
    runIdxs cfg chLoop qLoop l st = st := by
  induction l with
  | nil => rfl
  | cons i rest ih => rw [runIdxs, batchStep_stopped cfg chLoop qLoop st i h, ih]

theorem batchStep_executed_cases (cfg : Nat → LoopCfg) (chLoop qLoop : Nat)
    (st : BatchState) (i : Nat) :
    (batchStep cfg chLoop qLoop st i).executed = st.executed ∨
      (batchStep cfg chLoop qLoop st i).executed = st.executed ++ [i] := by
  unfold batchStep
  split
  · exact Or.inl rfl
  split
  · exact Or.inl rfl
  split
  · exact Or.inl rfl
  split
  · exact Or.inl rfl
  · exact Or.inr rfl

theorem batchStep_executed_sub (cfg : Nat → LoopCfg) (chLoop qLoop : Nat)
    (st : BatchState) (i : Nat) (x : Nat)
    (hx : x ∈ (batchStep cfg chLoop qLoop st i).executed) :
    x ∈ st.executed ∨ x = i := by
  rcases batchStep_executed_cases cfg chLoop qLoop st i with h | h <;> rw [h] at hx
  · exact Or.inl hx
  · rcases List.mem_append.mp hx with h2 | h2
    · exact Or.inl h2
    · exact Or.inr (by simpa using h2)

theorem runIdxs_executed_sub (cfg : Nat → LoopCfg) (chLoop qLoop : Nat)
    (l : List Nat) (st : BatchState) (x : Nat)
    (hx : x ∈ (runIdxs cfg chLoop qLoop l st).executed) :
    x ∈ st.executed ∨ x ∈ l := by
  induction l generalizing st with
  | nil => exact Or.inl hx
  | cons i rest ih =>
      rcases ih _ hx with h | h
      · rcases batchStep_executed_sub cfg chLoop qLoop st i x h with h2 | h2
        · exact Or.inl h2
        · exact Or.inr (by simp [h2])
      · exact Or.inr (by simp [h])

theorem runIdxs_append (cfg : Nat → LoopCfg) (chLoop qLoop : Nat)
    (l1 l2 : List Nat) (st : BatchState) :
    runIdxs cfg chLoop qLoop (l1 ++ l2) st =
      runIdxs cfg chLoop qLoop l2 (runIdxs cfg chLoop qLoop l1 st) := by
  induction l1 generalizing st with
  | nil => rfl
  | cons i rest ih => simp [runIdxs, ih]

/-- None of the three freshly-read bounds is exceeded at iteration `j`. -/
def passes (cfg : Nat → LoopCfg) (chLoop qLoop j : Nat) : Prop :=
  ckExceed cfg chLoop qLoop j = false ∧ chExceed cfg chLoop qLoop j = false ∧
    qExceed cfg qLoop j = false

theorem batchStep_exec_pass (cfg : Nat → LoopCfg) (chLoop qLoop : Nat)
    (st : BatchState) (i : Nat)
    (hinv : ∀ j ∈ st.executed, passes cfg chLoop qLoop j) :
    ∀ j ∈ (batchStep cfg chLoop qLoop st i).executed, passes cfg chLoop qLoop j := by
  intro j hj
  unfold batchStep at hj
  by_cases h1 : st.stopped = true
  · exact hinv j (by simpa [h1] using hj)
  · rw [if_neg h1] at hj
    by_cases h2 : ckExceed cfg chLoop qLoop i = true
    · rw [if_pos h2] at hj
      exact hinv j hj
    · rw [if_neg h2] at hj
      by_cases h3 : chExceed cfg chLoop qLoop i = true
      · rw [if_pos h3] at hj
        exact hinv j hj
      · rw [if_neg h3] at hj
        by_cases h4 : qExceed cfg qLoop i = true
        · rw [if_pos h4] at hj
          exact hinv j hj
        · rw [if_neg h4] at hj
          simp only [Bool.not_eq_true] at h2 h3 h4
          simp only [List.mem_append, List.mem_singleton] at hj
          rcases hj with hj | rfl
          · exact hinv j hj
          · exact ⟨h2, h3, h4⟩

theorem runIdxs_exec_pass (cfg : Nat → LoopCfg) (chLoop qLoop : Nat)
    (l : List Nat) (st : BatchState)
    (hinv : ∀ j ∈ st.executed, passes cfg chLoop qLoop j) :
    ∀ j ∈ (runIdxs cfg chLoop qLoop l st).executed, passes cfg chLoop qLoop j := by
  induction l generalizing st with
  | nil => exact hinv
  | cons i rest ih =>
      exact ih _ (batchStep_exec_pass cfg chLoop qLoop st i hinv)

theorem batchStep_ckExceed (cfg : Nat → LoopCfg) (chLoop qLoop : Nat)
    (st : BatchState) (idx : Nat) (h : ckExceed cfg chLoop qLoop idx = true) :
    (batchStep cfg chLoop qLoop st idx).stopped = true ∧
      (batchStep cfg chLoop qLoop st idx).executed = st.executed := by
  unfold batchStep
  by_cases hs : st.stopped = true
  · simp [hs]
  · simp [hs, h]

theorem getKeyD_of_lookup_none {β : Type} (m : List (String × β)) (k : String)
    (d : β) (h : lookupKey m k = none) : getKeyD m k d = d := by
  induction m with
  | nil => rfl
  | cons p rest ih =>
      obtain ⟨a, b⟩ := p
      by_cases ha : a = k
      · simp [lookupKey, ha] at h
      · simp only [lookupKey, if_neg ha] at h
        simp [getKeyD, ha, ih h]

/-!
# The claims
-/

/-- C1 (counterexample): starting from an empty cycle pool, a pop against
candidates `["a", "b"]` leaves `"b"` in the stored pool; the next pop, now
against candidates `["c"]`, returns the stale `"b"`, which is not a member
of the candidates argument of that call.  (`id` stands for the identity
outcome of `random.shuffle`.) -/
theorem cycle_pop_stale_pool_counterexample :
    popFromCycle id [] ["a", "b"] 1 = (["a"], ["b"]) ∧
      popFromCycle id ["b"] ["c"] 1 = (["b"], []) ∧ "b" ∉ (["c"] : List String) := by
  refine ⟨rfl, rfl, by decide⟩

/-- C1 (amended): `_pop_from_cycle` never raises — with empty candidates it
returns the empty list and leaves the pool unchanged — and every returned
identifier is a member of the candidates argument *or of the pool stored by
an earlier call*; membership in the current candidates alone holds only
when the stored pool is a subset of them. -/
theorem cycle_pop_amended (shuffle : List String → List String)
    (hs : ∀ l, ∀ y ∈ shuffle l, y ∈ l) :
    (∀ pool cand k, ∀ x ∈ (popFromCycle shuffle pool cand k).1,
        x ∈ pool ∨ x ∈ cand) ∧
      (∀ pool k, popFromCycle shuffle pool [] k = ([], pool)) :=
  ⟨fun pool cand k x hx => popFromCycle_subset shuffle pool cand k hs x hx,
   fun pool k => popFromCycle_empty_cand shuffle pool k⟩

/-- Witness for C1 (amended) at concrete inputs. -/
theorem cycle_pop_amended_witness :
    ("a" ∈ (popFromCycle id ["b"] ["a"] 1).1 → "a" ∈ ["b"] ∨ "a" ∈ ["a"]) ∧
      popFromCycle id ["b"] [] 5 = ([], ["b"]) :=
  ⟨(cycle_pop_amended id (fun _ _ hy => hy)).1 ["b"] ["a"] 1 "a",
   (cycle_pop_amended id (fun _ _ hy => hy)).2 ["b"] 5⟩

/-- C2 (counterexample): with configured `CheckpointDbWeightMin = -5`,
`base = 1` and usage count `10`, the code computes `max(0, clamp) = 0`
while the claimed `clamp(base - cnt, min, max)` is `-5`. -/
theorem db_weight_clamp_counterexample :
    dbWeight 1 100 (-5) 10 = 0 ∧ clampSpec (1 - 10) (-5) 100 = -5 ∧
      dbWeight 1 100 (-5) 10 ≠ clampSpec (1 - 10) (-5) 100 := by
  refine ⟨by decide, by decide, by decide⟩

/-- C2 (amended): the weight used in the db weighted draw is
`max 0 (clamp(base_weight - usage_count, min_weight, max_weight))`; it
equals the claimed clamp exactly when the configured minimum is
non-negative.  The usage count of an identifier with no record defaults
to 0. -/
theorem db_weight_amended :
    (∀ base maxW minW cnt : Int,
        dbWeight base maxW minW cnt = max 0 (clampSpec (base - cnt) minW maxW)) ∧
      (∀ base maxW minW cnt : Int, 0 ≤ minW →
        dbWeight base maxW minW cnt = clampSpec (base - cnt) minW maxW) ∧
      (∀ db k, lookupKey db k = none → countOf db k = 0) := by
  refine ⟨dbWeight_eq_max_zero_clamp, fun base maxW minW cnt hmin => ?_, ?_⟩
  · rw [dbWeight_eq_max_zero_clamp]
    have : (0 : Int) ≤ clampSpec (base - cnt) minW maxW :=
      le_trans hmin (le_max_left _ _)
    omega
  · intro db k h
    exact getKeyD_of_lookup_none db k 0 h

/-- Witness for C2 (amended) at concrete inputs. -/
theorem db_weight_amended_witness :
    dbWeight 2 100 1 5 = clampSpec (2 - 5) 1 100 ∧ countOf [] "a" = 0 :=
  ⟨db_weight_amended.2.1 2 100 1 5 (by decide), db_weight_amended.2.2 [] "a" rfl⟩

/-- C3 (counterexample): the etc-lora db selection with a non-empty
candidate list but a configured pick count resolving to 0
(`LoraDbCnt = 0`) returns the empty selection. -/
theorem db_liveness_counterexample :
    dbSelectLora 50 100 1 [] ["a"] 0 (fun _ => 0) (fun _ => 0) = [] ∧
      (["a"] : List String) ≠ [] := by
  refine ⟨rfl, by decide⟩

/-- C3 (amended): for every non-empty candidate list the checkpoint db
strategy returns one candidate (uniform fallback included), and the
etc-lora db strategy returns a non-empty selection of candidates provided
the configured pick count resolves to at least 1. -/
theorem db_liveness_amended :
    (∀ (base maxW minW : Int) (db : List (String × Int)) (cands : List String)
        (u : ℚ) (r : Nat), cands ≠ [] →
        ∃ x, dbSelectCheckpoint base maxW minW db cands u r = some x ∧ x ∈ cands) ∧
      (∀ (base maxW minW : Int) (db : List (String × Int)) (cands : List String)
        (cnt : Nat) (us : Nat → ℚ) (rs : Nat → Nat), cands ≠ [] → 1 ≤ cnt →
        dbSelectLora base maxW minW db cands cnt us rs ≠ [] ∧
          ∀ x ∈ dbSelectLora base maxW minW db cands cnt us rs, x ∈ cands) :=
  ⟨fun base maxW minW db cands u r h =>
      dbSelectCheckpoint_isSome base maxW minW db cands u r h,
   fun base maxW minW db cands cnt us rs h hcnt =>
      dbSelectLora_nonempty base maxW minW db cands cnt us rs h hcnt⟩

/-- Witness for C3 (amended) at concrete inputs. -/
theorem db_liveness_amended_witness :
    (∃ x, dbSelectCheckpoint 1 100 1 [] ["a"] 0 0 = some x ∧ x ∈ ["a"]) ∧
      (dbSelectLora 1 100 1 [] ["a"] 1 (fun _ => 0) (fun _ => 0) ≠ [] ∧
        ∀ x ∈ dbSelectLora 1 100 1 [] ["a"] 1 (fun _ => 0) (fun _ => 0),
          x ∈ ["a"]) :=
  ⟨db_liveness_amended.1 1 100 1 [] ["a"] 0 0 (by decide),
   db_liveness_amended.2 1 100 1 [] ["a"] 1 (fun _ => 0) (fun _ => 0)
     (by decide) (by decide)⟩

/-- C4: in the `weight` strategy, the merged weight map assigns every
identifier the *sum*, over all metadata buckets (and entries) defining it,
of the entry's `weight` property or the category default when the property
is absent — contributions from multiple buckets accumulate rather than
overwrite (`merged_weights[key] = merged_weights.get(key, 0) + weight`). -/
theorem weight_merge_sums (default : ℚ)
    (bs : List (List (String × Option YVal))) (k : String)
    (hnum : ∀ b ∈ bs, ∀ e ∈ b, e.2 ≠ some YVal.nonnum) :
    ∃ m, mergedWeightsCk default bs = .ok m ∧
      getKeyD m k 0 = (bs.map (fun b => bucketContrib (ckContrib default) b k)).sum := by
  have h : ∀ b ∈ bs, ∀ e ∈ b, ckContrib default e.2 ≠ none := by
    intro b hb e he
    cases hv : e.2 with
    | none => simp [ckContrib]
    | some v =>
        cases v with
        | num q => simp [ckContrib]
        | nonnum => exact absurd hv (hnum b hb e he)
  obtain ⟨m, hm, hval⟩ := mergeBuckets_ok (ckContrib default) bs [] h
  exact ⟨m, hm, by simpa [getKeyD] using hval k⟩

/-- Witness for C4: an identifier in two buckets (weights 10 and 5) gets
merged weight 15 next to an absent-weight identifier getting the default. -/
theorem weight_merge_sums_witness :
    (∃ m, mergedWeightsCk 150
        [[("a", some (YVal.num 10))], [("a", some (YVal.num 5)), ("b", none)]] = .ok m ∧
      getKeyD m "a" 0 =
        ([[("a", some (YVal.num 10))], [("a", some (YVal.num 5)), ("b", none)]].map
          (fun b => bucketContrib (ckContrib 150) b "a")).sum) :=
  weight_merge_sums 150
    [[("a", some (YVal.num 10))], [("a", some (YVal.num 5)), ("b", none)]] "a"
    (by decide)

/-- C5: starting from an empty cycle pool, `|cand|` single-item pops
against a fixed candidate list return a permutation of it — with distinct
candidates, each exactly once before any repeat. -/
theorem cycle_full_permutation (shuffle : List String → List String)
    (cand : List String) (hperm : ∀ l, (shuffle l).Perm l) (hc : cand ≠ []) :
    (popCycleSeq shuffle cand cand.length []).Perm cand ∧
      (cand.Nodup → ∀ x ∈ cand,
        (popCycleSeq shuffle cand cand.length []).count x = 1) := by
  have hlen : (shuffle cand).length = cand.length := (hperm cand).length_eq
  have hfull := popCycleSeq_full shuffle cand hc hlen
  constructor
  · rw [hfull]
    exact hperm cand
  · intro hnd x hx
    rw [hfull, (hperm cand).count_eq]
    exact List.count_eq_one_of_mem hnd hx

/-- Witness for C5 at a concrete three-candidate pool. -/
theorem cycle_full_permutation_witness :
    (popCycleSeq id ["x", "y", "z"] 3 []).Perm ["x", "y", "z"] ∧
      ((["x", "y", "z"] : List String).Nodup → ∀ x ∈ (["x", "y", "z"] : List String),
        (popCycleSeq id ["x", "y", "z"] 3 []).count x = 1) :=
  cycle_full_permutation id ["x", "y", "z"] (fun l => List.Perm.refl l) (by decide)

/-- C6: in a group with `per` enabled and `perMax` resolved to 1, whose
dictionary holds exactly the non-excluded series `s1` (per = 0.0) and `s2`
(per = 1.0) in either order, and with the weight and total stages disabled,
the per-stage always selects exactly `[s2]` (for every random stream in
`[0,1)`), and the group's final selected series list is exactly `[s2]`. -/
theorem weightyml_per_stage_deterministic (s1 s2 : String)
    (w1 w2 : Option YVal) (ex : List String)
    (hex1 : s1 ∉ ex) (hex2 : s2 ∉ ex)
    (wm tm : Int) (rs us : Nat → ℚ) (sampler : List String → Int → List String)
    (hrs : ∀ i, 0 ≤ rs i ∧ rs i < 1) :
    (perStage rs 1 [(s1, some 0), (s2, some 1)] 0 0 = [s2] ∧
      perStage rs 1 [(s2, some 1), (s1, some 0)] 0 0 = [s2]) ∧
    (groupSelect ⟨true, 1, false, wm, false, tm, ex,
        [(s1, ⟨some 0, w1⟩), (s2, ⟨some 1, w2⟩)]⟩ rs us sampler = [s2] ∧
      groupSelect ⟨true, 1, false, wm, false, tm, ex,
        [(s2, ⟨some 1, w2⟩), (s1, ⟨some 0, w1⟩)]⟩ rs us sampler = [s2]) := by
  have h1 : ∀ i, ¬ rs i < 0 := fun i => not_lt.mpr (hrs i).1
  have h2 : ∀ i, rs i < 1 := fun i => (hrs i).2
  have hp1 : perStage rs 1 [(s1, some 0), (s2, some 1)] 0 0 = [s2] := by
    simp [perStage, h1 0, h2 1]
  have hp2 : perStage rs 1 [(s2, some 1), (s1, some 0)] 0 0 = [s2] := by
    simp [perStage, h2 0]
  refine ⟨⟨hp1, hp2⟩, ?_, ?_⟩
  · simp [groupSelect, hex1, hex2, orOne, hp1, dedupFirst]
  · simp [groupSelect, hex1, hex2, orOne, hp2, dedupFirst]

/-- Witness for C6 at concrete inputs. -/
theorem weightyml_per_stage_deterministic_witness :
    (perStage (fun _ => 0) 1 [("S1", some 0), ("S2", some 1)] 0 0 = ["S2"] ∧
      perStage (fun _ => 0) 1 [("S2", some 1), ("S1", some 0)] 0 0 = ["S2"]) ∧
    (groupSelect ⟨true, 1, false, 1, false, 1, [],
        [("S1", ⟨some 0, none⟩), ("S2", ⟨some 1, none⟩)]⟩ (fun _ => 0) (fun _ => 0)
        (fun l _ => l) = ["S2"] ∧
      groupSelect ⟨true, 1, false, 1, false, 1, [],
        [("S2", ⟨some 1, none⟩), ("S1", ⟨some 0, none⟩)]⟩ (fun _ => 0) (fun _ => 0)
        (fun l _ => l) = ["S2"]) :=
  weightyml_per_stage_deterministic "S1" "S2" none none []
    (List.not_mem_nil "S1") (List.not_mem_nil "S2") 1 1
    (fun _ => 0) (fun _ => 0) (fun l _ => l)
    (fun _ => ⟨le_refl 0, by norm_num⟩)

/-- C7 (counterexample): the checkpoint `weight` strategy stores the
selected identifier with a `None` path when the catalog cannot resolve it,
instead of discarding it. -/
theorem path_discard_counterexample :
    setCheckpointWeight 150 [[("a", some (YVal.num 1))]] [] 0 none =
      some ("a", none) ∧
      lookupPath [] "a" = none := by
  refine ⟨?_, rfl⟩
  norm_num [setCheckpointWeight, mergedWeightsCk, mergeBuckets, mergeEntries,
    ckContrib, setKey, getKeyD, weightedPickQ, pickCum, lookupPath, lookupKey]

/-- C7 (amended): the checkpoint strategy stores whatever the catalog
lookup yields — including `none` for an unresolvable identifier — while
only the `weightyml` per-series mapping step discards identifiers whose
path does not resolve (or is falsy). -/
theorem path_discard_amended :
    (∀ (default : ℚ) (bs : List (List (String × Option YVal)))
        (catalog : List (String × String)) (u : ℚ)
        (prev : Option (String × Option String)) (sel : String)
        (m : List (String × ℚ)),
        mergedWeightsCk default bs = .ok m →
        weightedPickQ m u = some sel →
        setCheckpointWeight default bs catalog u prev =
          some (sel, lookupPath catalog sel)) ∧
      (∀ catalog sel mapped, lookupPath catalog sel = none →
        wyAddMapped catalog sel mapped = mapped) := by
  constructor
  · intro default bs catalog u prev sel m hm hpick
    have hmne : ¬ m.isEmpty := by
      intro he
      rw [List.isEmpty_iff.mp he] at hpick
      simp [weightedPickQ] at hpick
    simp only [setCheckpointWeight, hm, hpick, if_neg hmne]
  · intro catalog sel mapped h
    simp [wyAddMapped, h]

/-- Witness for C7 (amended) at concrete inputs. -/
theorem path_discard_amended_witness :
    setCheckpointWeight 150 [[("b", some (YVal.num 2))]] [("b", "p")] 0 none =
      some ("b", lookupPath [("b", "p")] "b") ∧
      wyAddMapped [] "z" [] = [] :=
  ⟨path_discard_amended.1 150 [[("b", some (YVal.num 2))]] [("b", "p")] 0 none
      "b" [("b", 2)]
      (by norm_num [mergedWeightsCk, mergeBuckets, mergeEntries, ckContrib,
        setKey, getKeyD])
      (by norm_num [weightedPickQ, pickCum]),
   path_discard_amended.2 [] "z" [] rfl⟩

/-- C8 (counterexample): with initial loops `checkpoint = 2, char = 2,
queue = 1` and every re-read giving `CheckpointLoop = 2, CharLoop = 1,
queueLoop = 1`, iteration 1 exceeds the freshly-read char maximum, yet
iteration 2 still executes: the char-level overrun does not abort the
remainder of the outer batch. -/
theorem loop_abort_counterexample :
    runBatch (fun _ => ⟨2, 1, 1⟩) 2 2 1 = ([0, 2], false) ∧
      chExceed (fun _ => ⟨2, 1, 1⟩) 2 1 1 = true := by
  refine ⟨rfl, rfl⟩

/-- C8 (amended): the driver re-reads the bounds each iteration and never
*executes* an iteration whose index exceeds any freshly-read bound, but
only a checkpoint-level overrun aborts the remainder of the batch (nothing
at or after it executes); char- and queue-level overruns merely skip the
current iteration. -/
theorem loop_abort_amended :
    (∀ (cfg : Nat → LoopCfg) (ckLoop chLoop qLoop : Nat),
        ∀ x ∈ (runBatch cfg ckLoop chLoop qLoop).1, passes cfg chLoop qLoop x) ∧
      (∀ (cfg : Nat → LoopCfg) (ckLoop chLoop qLoop idx : Nat),
        ckExceed cfg chLoop qLoop idx = true →
        ∀ j ∈ (runBatch cfg ckLoop chLoop qLoop).1, j < idx) := by
  constructor
  · intro cfg ckLoop chLoop qLoop x hx
    simp only [runBatch] at hx
    exact runIdxs_exec_pass cfg chLoop qLoop _ _ (by intro j hj; simp at hj) x hx
  · intro cfg ckLoop chLoop qLoop idx hex j hj
    simp only [runBatch] at hj
    by_cases hlt : idx < ckLoop * chLoop * qLoop
    · have hsplit : List.range (ckLoop * chLoop * qLoop) =
          (List.range idx ++ [idx]) ++
            (List.range (ckLoop * chLoop * qLoop - (idx + 1))).map
              (fun t => idx + 1 + t) := by
        rw [← List.range_succ, ← List.range_add]
        congr 1
        omega
      rw [hsplit, runIdxs_append, runIdxs_append] at hj
      set st1 := runIdxs cfg chLoop qLoop (List.range idx) ⟨[], false, -1, -1⟩
          with hst1
      obtain ⟨hstop, hexec⟩ := batchStep_ckExceed cfg chLoop qLoop st1 idx hex
      have hone : runIdxs cfg chLoop qLoop [idx] st1 =
          batchStep cfg chLoop qLoop st1 idx := rfl
      rw [hone, runIdxs_stopped cfg chLoop qLoop _ _ hstop, hexec] at hj
      rcases runIdxs_executed_sub cfg chLoop qLoop (List.range idx)
          ⟨[], false, -1, -1⟩ j (by exact hj) with h | h
      · simp at h
      · exact List.mem_range.mp h
    · rcases runIdxs_executed_sub cfg chLoop qLoop _ ⟨[], false, -1, -1⟩ j hj
          with h | h
      · simp at h
      · have := List.mem_range.mp h
        omega

/-- Witness for C8 (amended) at concrete inputs. -/
theorem loop_abort_amended_witness :
    (0 ∈ (runBatch (fun _ => ⟨2, 1, 1⟩) 2 2 1).1 →
        passes (fun _ => ⟨2, 1, 1⟩) 2 1 0) ∧
      (2 ∈ (runBatch (fun _ => ⟨1, 1, 1⟩) 2 2 1).1 → 2 < 2) :=
  ⟨loop_abort_amended.1 (fun _ => ⟨2, 1, 1⟩) 2 2 1 0,
   loop_abort_amended.2 (fun _ => ⟨1, 1, 1⟩) 2 2 1 2 rfl 2⟩

/-- C9 (counterexample): a non-numeric `weight` property in the checkpoint
`weight` strategy is *not* replaced by the configured default: the merge
raises (`0 + weight` is a `TypeError`), the blanket handler swallows it,
and the selection call keeps the previous selection, whereas the
spec-modelled default-substituting variant would pick the identifier. -/
theorem nonnumeric_weight_counterexample :
    setCheckpointWeight 150 [[("a", some YVal.nonnum)]] [("a", "p")] 0 none =
      none ∧
      setCheckpointWeightSpecModel 150 [[("a", some YVal.nonnum)]] [("a", "p")]
        0 none = some ("a", some "p") := by
  refine ⟨rfl, ?_⟩
  norm_num [setCheckpointWeightSpecModel, mergeBuckets, mergeEntries, ckContrib,
    setKey, getKeyD, weightedPickQ, pickCum, lookupPath, lookupKey]

/-- C9 (amended): a non-numeric weight makes the checkpoint (and char)
`weight` strategy a no-op that keeps the previous selection — so no
exception propagates out of the call — while the etc-lora `weight`
strategy replaces the value by the constant `1.0` and proceeds. -/
theorem nonnumeric_weight_amended :
    (∀ (default : ℚ) (bs : List (List (String × Option YVal)))
        (catalog : List (String × String)) (u : ℚ)
        (prev : Option (String × Option String)),
        (∃ b ∈ bs, ∃ e ∈ b, e.2 = some YVal.nonnum) →
        setCheckpointWeight default bs catalog u prev = prev) ∧
      (∀ (bs : List (List (String × Option YVal))) (k : String),
        ∃ m, mergedWeightsLora bs = .ok m ∧
          getKeyD m k 0 = (bs.map (fun b => bucketContrib loraContrib b k)).sum) := by
  constructor
  · intro default bs catalog u prev h
    have herr : mergedWeightsCk default bs = .error () := by
      apply mergeBuckets_error
      rcases h with ⟨b, hb, e, he, hv⟩
      exact ⟨b, hb, e, he, by simp [ckContrib, hv]⟩
    simp only [setCheckpointWeight, herr]
  · intro bs k
    have h : ∀ b ∈ bs, ∀ e ∈ b, loraContrib e.2 ≠ none := by
      intro b _ e _
      cases hv : e.2 with
      | none => simp [loraContrib]
      | some v => cases v <;> simp [loraContrib]
    obtain ⟨m, hm, hval⟩ := mergeBuckets_ok loraContrib bs [] h
    exact ⟨m, hm, by simpa [getKeyD] using hval k⟩

/-- Witness for C9 (amended) at concrete inputs. -/
theorem nonnumeric_weight_amended_witness :
    setCheckpointWeight 150 [[("a", some YVal.nonnum)]] [] 0
        (some ("z", none)) = some ("z", none) ∧
      (∃ m, mergedWeightsLora [[("b", some YVal.nonnum)]] = .ok m ∧
        getKeyD m "b" 0 = ([[("b", some YVal.nonnum)]].map
          (fun b => bucketContrib loraContrib b "b")).sum) :=
  ⟨nonnumeric_weight_amended.1 150 [[("a", some YVal.nonnum)]] [] 0
      (some ("z", none))
      ⟨[("a", some YVal.nonnum)], by decide, ("a", some YVal.nonnum), by decide, rfl⟩,
   nonnumeric_weight_amended.2 [[("b", some YVal.nonnum)]] "b"⟩

/-- C10: in the WeightYml weight-stage, a series declaring weight 0 is not
excluded: `float(weight or 1.0)` turns the falsy 0 into an effective weight
of `1.0`, and the series stays in the weighted-draw candidate list with
that weight. -/
theorem weightyml_zero_weight_eligible (dic : List (String × Option YVal))
    (s : String) (h : (s, some (YVal.num 0)) ∈ dic) :
    (s, (1 : ℚ)) ∈ weightCandidates dic := by
  induction dic with
  | nil => simp at h
  | cons e rest ih =>
      rcases List.mem_cons.mp h with he | htail
      · rw [← he]
        simp [weightCandidates, seriesW]
      · obtain ⟨s2, v2⟩ := e
        cases v2 with
        | none => simpa [weightCandidates] using ih htail
        | some v =>
            by_cases hw : seriesW v > 0
            · simp only [weightCandidates, if_pos hw]
              exact List.mem_cons_of_mem _ (ih htail)
            · simpa [weightCandidates, hw] using ih htail

/-- Witness for C10 at a concrete dictionary. -/
theorem weightyml_zero_weight_eligible_witness :
    ("a", (1 : ℚ)) ∈ weightCandidates [("a", some (YVal.num 0))] :=
  weightyml_zero_weight_eligible [("a", some (YVal.num 0))] "a" (by decide)

end ComfyAuto
